import Mathlib

/-!
Verification of the `spell` CLI spelling trainer (src/index.js).

This file gives a shallow embedding of the review scheduler and the drill
session state machine of the program, and settles the specification claims
against it.

Modelling conventions:
* Timestamps (`Date` values / ISO strings) are modelled as integers counting
  days; `addDays d n = d + n` and date comparison is integer comparison.
  All `new Date()` calls performed inside one synchronous event handler are
  modelled as the single parameter `now` (they differ by at most
  milliseconds in the program, which is below the day granularity that the
  scheduling arithmetic uses).
* Strings that are typed character by character (`word`, `userInput`) are
  modelled as `List Char`.
* `fs.writeFileSync` in `saveWordList` is modelled by a ghost field `saved`
  recording the successive collections passed to the store.
* JavaScript code that would throw (property access on `undefined`) is
  modelled with `Option`: `none` is a crash.
-/

/-- One entry of the spelling list (`WordData` typedef in src/index.js). -/
structure WordData where
  word : List Char
  definition : String
  level : Int
  lastPracticed : Int
  nextReviewDate : Int
deriving DecidableEq, Repr

/-- The `state.mode` string field. -/
inductive Mode where
  | typing
  | success
  | error
  | manage
deriving DecidableEq, Repr

/-- The global mutable `state` object of src/index.js (the fields the drill
session reads and writes), plus the ghost `saved` log of persistence calls. -/
structure SpellState where
  wordList : List WordData
  currentIndex : Nat
  userInput : List Char
  hasStartedTyping : Bool
  mode : Mode
  currentWordStreak : Nat
  repeatCount : Int
  showSuccessIndicator : Bool
  showErrorIndicator : Bool
  saved : List (List WordData)
deriving DecidableEq, Repr

/-- Result of one event-handler invocation: either the process keeps
running with a new state, or it terminates (`process.exit`) in one of the
distinguished terminal situations. -/
inductive Outcome where
  | cont (s : SpellState)
  | exitAllDone (s : SpellState)
  | exitListEmpty (s : SpellState)
  | exitInterrupt (s : SpellState)
deriving DecidableEq, Repr

/-- The function `saveWordList` (src/index.js line 125): writes the current collection to
the store; modelled by appending it to the ghost `saved` log. -/
def saveWordList (s : SpellState) : SpellState :=
  { s with saved := s.saved ++ [s.wordList] }

/-- The fixed interval table of `getReviewInterval`. -/
def intervalsList : List Int := [1, 3, 7, 16, 35, 70, 140]

/-- The function `getReviewInterval` (src/index.js lines 112-117).
`intervals[level - 1] || 180` yields 180 both when the index is out of
bounds (`undefined` is falsy) and when the fetched number is 0 (also falsy);
the `if v = 0` branch models the latter. -/
def getReviewInterval (level : Int) : Int :=
  if level ≤ 0 then 0
  else
    let calculatedInterval : Int :=
      match intervalsList[(level - 1).toNat]? with
      | some v => if v = 0 then 180 else v
      | none => 180
    min calculatedInterval 180

/-- The function `addDays` (src/index.js lines 119-123) on the integer-day time model. -/
def addDays (date : Int) (days : Int) : Int := date + days

/-- Insert an indexed record into a list sorted ascending by
`nextReviewDate`, before any already-present record with an equal date.
Together with `sortDue` this models the (stable, ES2019) JavaScript
`Array.prototype.sort` with comparator
`(a, b) => new Date(a.nextReviewDate) - new Date(b.nextReviewDate)`. -/
def insertDue (x : Nat × WordData) : List (Nat × WordData) → List (Nat × WordData)
  | [] => [x]
  | y :: ys =>
    if x.2.nextReviewDate ≤ y.2.nextReviewDate then x :: y :: ys
    else y :: insertDue x ys

/-- Stable ascending sort by `nextReviewDate` (see `insertDue`). -/
def sortDue : List (Nat × WordData) → List (Nat × WordData)
  | [] => []
  | x :: xs => insertDue x (sortDue xs)

/-- The index-computing core of `findNextWordToReview`
(src/index.js lines 129-140): pair every record with its original index,
keep the due ones, stable-sort by `nextReviewDate`, and return the original
index of the first, or `none` when nothing is due. -/
def findNextWordIndex (wordList : List WordData) (now : Int) : Option Nat :=
  let dueWords := wordList.enum.filter (fun p => p.2.nextReviewDate ≤ now)
  if dueWords = [] then none
  else
    match sortDue dueWords with
    | [] => none
    | p :: _ => some p.1

/-- The function `findNextWordToReview` (src/index.js lines 129-140) as a state
transformer: returns the boolean result and the state with `currentIndex`
updated to the selected record's original index. -/
def findNextWordToReview (now : Int) (s : SpellState) : Bool × SpellState :=
  match findNextWordIndex s.wordList now with
  | none => (false, s)
  | some i => (true, { s with currentIndex := i })

/-! ### Properties of the stable sort used by `findNextWordIndex` -/

theorem insertDue_ne_nil (x : Nat × WordData) (l : List (Nat × WordData)) :
    insertDue x l ≠ [] := by
  cases l with
  | nil => simp [insertDue]
  | cons y ys =>
    unfold insertDue
    split <;> simp

theorem sortDue_eq_nil_iff (l : List (Nat × WordData)) :
    sortDue l = [] ↔ l = [] := by
  cases l with
  | nil => simp [sortDue]
  | cons x xs =>
    simp only [sortDue]
    exact ⟨fun h => absurd h (insertDue_ne_nil x (sortDue xs)), fun h => by simp at h⟩

/-- The head of the stable sort is a member of the input and has minimal
`nextReviewDate`. -/
theorem sortDue_head_min (l : List (Nat × WordData)) (h : Nat × WordData)
    (t : List (Nat × WordData)) (heq : sortDue l = h :: t) :
    h ∈ l ∧ ∀ p ∈ l, h.2.nextReviewDate ≤ p.2.nextReviewDate := by
  induction l generalizing h t with
  | nil => simp [sortDue] at heq
  | cons x xs ih =>
    simp only [sortDue] at heq
    cases hxs : sortDue xs with
    | nil =>
      have hnil : xs = [] := (sortDue_eq_nil_iff xs).mp hxs
      rw [hxs] at heq
      simp only [insertDue] at heq
      cases heq
      subst hnil
      refine ⟨List.mem_cons_self _ _, ?_⟩
      intro p hp
      rcases List.mem_cons.mp hp with rfl | hp
      · exact le_refl _
      · simp at hp
    | cons y t' =>
      obtain ⟨hy_mem, hy_min⟩ := ih y t' hxs
      rw [hxs] at heq
      simp only [insertDue] at heq
      by_cases hc : x.2.nextReviewDate ≤ y.2.nextReviewDate
      · rw [if_pos hc] at heq
        cases heq
        refine ⟨List.mem_cons_self _ _, ?_⟩
        intro p hp
        rcases List.mem_cons.mp hp with rfl | hp
        · exact le_refl _
        · exact le_trans hc (hy_min p hp)
      · rw [if_neg hc] at heq
        cases heq
        refine ⟨List.mem_cons_of_mem _ hy_mem, ?_⟩
        intro p hp
        rcases List.mem_cons.mp hp with rfl | hp
        · omega
        · exact hy_min p hp

/-- Stability: when the input is strictly increasing in its first (index)
component, the head of the stable sort has the smallest index among entries
whose `nextReviewDate` is not later than the head's (i.e. ties keep
original order). -/
theorem sortDue_head_first (l : List (Nat × WordData)) (h : Nat × WordData)
    (t : List (Nat × WordData))
    (hpw : l.Pairwise (fun a b => a.1 < b.1)) (heq : sortDue l = h :: t) :
    ∀ p ∈ l, p.2.nextReviewDate ≤ h.2.nextReviewDate → h.1 ≤ p.1 := by
  induction l generalizing h t with
  | nil => simp [sortDue] at heq
  | cons x xs ih =>
    have hx_lt : ∀ b ∈ xs, x.1 < b.1 := (List.pairwise_cons.mp hpw).1
    have hpw_xs : xs.Pairwise (fun a b => a.1 < b.1) := (List.pairwise_cons.mp hpw).2
    simp only [sortDue] at heq
    cases hxs : sortDue xs with
    | nil =>
      have hnil : xs = [] := (sortDue_eq_nil_iff xs).mp hxs
      rw [hxs] at heq
      simp only [insertDue] at heq
      cases heq
      subst hnil
      intro p hp _
      rcases List.mem_cons.mp hp with rfl | hp
      · exact le_refl _
      · simp at hp
    | cons y t' =>
      obtain ⟨hy_mem, hy_min⟩ := sortDue_head_min xs y t' hxs
      rw [hxs] at heq
      simp only [insertDue] at heq
      by_cases hc : x.2.nextReviewDate ≤ y.2.nextReviewDate
      · rw [if_pos hc] at heq
        cases heq
        intro p hp _
        rcases List.mem_cons.mp hp with rfl | hp
        · exact le_refl _
        · exact le_of_lt (hx_lt p hp)
      · rw [if_neg hc] at heq
        cases heq
        intro p hp hple
        rcases List.mem_cons.mp hp with rfl | hp
        · omega
        · exact ih _ _ hpw_xs hxs p hp hple

/-- The `enum` pairing is strictly increasing in the index component. -/
theorem pairwise_fst_lt_enum (l : List WordData) :
    l.enum.Pairwise (fun a b => a.1 < b.1) := by
  rw [List.pairwise_iff_getElem]
  intro i j hi hj hij
  simp only [List.getElem_enum]
  simpa using hij

/-- The selector `findNextWordIndex` returns `none` exactly when no record is due. -/
theorem findNextWordIndex_eq_none_iff (wl : List WordData) (now : Int) :
    findNextWordIndex wl now = none ↔ ∀ w ∈ wl, ¬(w.nextReviewDate ≤ now) := by
  unfold findNextWordIndex
  constructor
  · intro h w hw
    intro hle
    obtain ⟨i, hi⟩ := List.mem_iff_getElem?.mp hw
    have hmem : (i, w) ∈ wl.enum := List.mk_mem_enum_iff_getElem?.mpr hi
    have hdue : (i, w) ∈ wl.enum.filter (fun p => p.2.nextReviewDate ≤ now) :=
      List.mem_filter.mpr ⟨hmem, by simpa using hle⟩
    by_cases hnil : wl.enum.filter (fun p => p.2.nextReviewDate ≤ now) = []
    · rw [hnil] at hdue
      simp at hdue
    · rw [if_neg hnil] at h
      rcases hsort : sortDue (wl.enum.filter (fun p => p.2.nextReviewDate ≤ now)) with
        _ | ⟨p, t⟩
      · exact hnil ((sortDue_eq_nil_iff _).mp hsort)
      · rw [hsort] at h
        simp at h
  · intro h
    have hnil : wl.enum.filter (fun p => p.2.nextReviewDate ≤ now) = [] := by
      rw [List.filter_eq_nil_iff]
      intro p hp
      have : p.2 ∈ wl := by
        have := List.mem_enum_iff_getElem?.mp hp
        exact List.getElem?_mem this
      simpa using h p.2 this
    rw [if_pos hnil]

/-- When `findNextWordIndex` returns an index, that index points at a due
record of minimal `nextReviewDate`, and among due records of equal date it
is the earliest-positioned one. -/
theorem findNextWordIndex_eq_some (wl : List WordData) (now : Int) (i : Nat)
    (h : findNextWordIndex wl now = some i) :
    ∃ w, wl[i]? = some w ∧ w.nextReviewDate ≤ now ∧
      ∀ j w', wl[j]? = some w' → w'.nextReviewDate ≤ now →
        (w.nextReviewDate ≤ w'.nextReviewDate ∧
          (w'.nextReviewDate ≤ w.nextReviewDate → i ≤ j)) := by
  unfold findNextWordIndex at h
  by_cases hnil : wl.enum.filter (fun p => p.2.nextReviewDate ≤ now) = []
  · rw [if_pos hnil] at h
    simp at h
  · rw [if_neg hnil] at h
    rcases hsort : sortDue (wl.enum.filter (fun p => p.2.nextReviewDate ≤ now)) with
      _ | ⟨p, t⟩
    · exact absurd ((sortDue_eq_nil_iff _).mp hsort) hnil
    · rw [hsort] at h
      simp only [Option.some.injEq] at h
      obtain ⟨hp_mem, hp_min⟩ := sortDue_head_min _ p t hsort
      have hpw : (wl.enum.filter (fun q => q.2.nextReviewDate ≤ now)).Pairwise
          (fun a b => a.1 < b.1) :=
        List.Pairwise.filter _ (pairwise_fst_lt_enum wl)
      have hp_first := sortDue_head_first _ p t hpw hsort
      have hp_enum : p ∈ wl.enum := List.mem_of_mem_filter hp_mem
      have hp_get : wl[p.1]? = some p.2 := List.mem_enum_iff_getElem?.mp hp_enum
      have hp_due : p.2.nextReviewDate ≤ now := by
        have := List.of_mem_filter hp_mem
        simpa using this
      refine ⟨p.2, by rw [← h]; exact hp_get, hp_due, ?_⟩
      intro j w' hj hw'
      have hj_mem : (j, w') ∈ wl.enum.filter (fun q => q.2.nextReviewDate ≤ now) :=
        List.mem_filter.mpr ⟨List.mk_mem_enum_iff_getElem?.mpr hj, by simpa using hw'⟩
      refine ⟨hp_min _ hj_mem, fun hle => ?_⟩
      rw [← h]
      exact hp_first _ hj_mem hle

/-- Models `word.startsWith(userInput)`: `startsWithCL w u` is true when `u` is a
prefix of `w`. Models `String.prototype.startsWith` on char lists. -/
def startsWithCL : List Char → List Char → Bool
  | _, [] => true
  | [], _ :: _ => false
  | c :: cs, d :: ds => (c == d) && startsWithCL cs ds

/-- An ASCII letter, as matched by the character class `[a-zA-Z]`. -/
def isAsciiLetter (c : Char) : Bool :=
  ('a' ≤ c && c ≤ 'z') || ('A' ≤ c && c ≤ 'Z')

/-- Models `str.match(/^[a-zA-Z]$/)`: a single-character ASCII-letter string. -/
def isLetterStr (cs : List Char) : Bool :=
  match cs with
  | [c] => isAsciiLetter c
  | _ => false

/-- The `key` object delivered by readline's keypress event (the fields
src/index.js reads). -/
structure Key where
  sequence : List Char
  name : String
  ctrl : Bool
  meta : Bool
deriving DecidableEq, Repr

/-- The handler `handleCorrectGuess` (src/index.js lines 454-482). All `new Date()`
reads inside the handler are the parameter `now`. `none` models a crash on
an out-of-range `currentIndex`. -/
def handleCorrectGuess (now : Int) (s : SpellState) : Option Outcome :=
  match s.wordList[s.currentIndex]? with
  | none => none
  | some currentWordData =>
    if s.userInput = currentWordData.word then
      let s1 : SpellState :=
        { s with mode := Mode.success, userInput := [], hasStartedTyping := false,
                 currentWordStreak := s.currentWordStreak + 1,
                 showSuccessIndicator := true }
      if (s1.currentWordStreak : Int) ≥ s1.repeatCount then
        let newLevel := currentWordData.level + 1
        let updated : WordData :=
          { currentWordData with
            level := newLevel, lastPracticed := now,
            nextReviewDate := addDays now (getReviewInterval newLevel) }
        let s2 := { s1 with wordList := s1.wordList.set s1.currentIndex updated }
        let s3 := saveWordList s2
        let s4 := { s3 with currentWordStreak := 0 }
        match findNextWordToReview now s4 with
        | (false, s5) => some (Outcome.exitAllDone s5)
        | (true, s5) => some (Outcome.cont { s5 with mode := Mode.typing })
      else some (Outcome.cont { s1 with mode := Mode.typing })
    else some (Outcome.cont s)

/-- The handler `handleIncorrectGuess` (src/index.js lines 484-496), up to the point
where the 700 ms timer is armed. -/
def handleIncorrectGuess (s : SpellState) : SpellState :=
  { s with mode := Mode.error, userInput := [], hasStartedTyping := false,
           currentWordStreak := 0, showErrorIndicator := true }

/-- The `setTimeout` callback inside `handleIncorrectGuess` that returns
the session to `typing` after the flash. -/
def incorrectTimeout (s : SpellState) : SpellState :=
  { s with mode := Mode.typing }

/-- The `state.mode === 'typing'` body of `onKeyPress`
(src/index.js lines 511-527). -/
def onKeyPressTyping (now : Int) (str : Option (List Char)) (key : Key)
    (s : SpellState) : Option Outcome :=
  if s.mode = Mode.typing then
    if key.name = "backspace" then
      some (Outcome.cont { s with userInput := s.userInput.dropLast })
    else
      match str with
      | some cs =>
        if cs ≠ [] ∧ key.ctrl = false ∧ key.meta = false then
          let s1 := { s with userInput := s.userInput ++ cs }
          match s1.wordList[s1.currentIndex]? with
          | none => none
          | some cw =>
            if startsWithCL cw.word s1.userInput then
              if s1.userInput = cw.word then handleCorrectGuess now s1
              else some (Outcome.cont s1)
            else some (Outcome.cont (handleIncorrectGuess s1))
        else some (Outcome.cont s)
      | none => some (Outcome.cont s)
  else some (Outcome.cont s)

/-- The handler `onKeyPress` (src/index.js lines 498-528). The Ctrl+C check comes
first; then the has-started-typing gate (where `str.match` on an undefined
`str` would crash, hence `none`); then the typing-mode body. -/
def onKeyPress (now : Int) (str : Option (List Char)) (key : Key)
    (s : SpellState) : Option Outcome :=
  if key.sequence = ['\x03'] then some (Outcome.exitInterrupt s)
  else if s.hasStartedTyping then onKeyPressTyping now str key s
  else
    match str with
    | none => none
    | some cs =>
      if isLetterStr cs then
        onKeyPressTyping now str key { s with hasStartedTyping := true }
      else some (Outcome.cont s)

/-- The handler `onData` (src/index.js lines 530-548): the Ctrl+D delete-current-word
handler. `chunk` is the raw byte buffer. -/
def onData (chunk : List Nat) (s : SpellState) : Outcome :=
  if chunk.length = 1 ∧ chunk.headD 0 = 4 then
    let s1 := { s with wordList := s.wordList.eraseIdx s.currentIndex }
    let s2 := saveWordList s1
    if s2.wordList.length = 0 then Outcome.exitListEmpty s2
    else
      Outcome.cont { s2 with
        currentIndex := 0, userInput := [],
        hasStartedTyping := false, mode := Mode.typing, currentWordStreak := 0 }
  else Outcome.cont s

/-- Models `parseInt(v, 10)`: skip leading whitespace, optional sign, longest
leading digit run; `none` models `NaN` (no digits found). -/
def parseIntJS (s : String) : Option Int :=
  let cs := s.toList.dropWhile (fun c => c.isWhitespace)
  let signAndRest : Int × List Char :=
    match cs with
    | '-' :: rest => (-1, rest)
    | '+' :: rest => (1, rest)
    | _ => (1, cs)
  let digits := signAndRest.2.takeWhile (fun c => c.isDigit)
  if digits = [] then none
  else
    some (signAndRest.1 *
      digits.foldl (fun acc c => acc * 10 + ((c.toNat : Int) - 48)) 0)

/-- The `--repeat`/`-r` handling of `initialize` (src/index.js lines
221-222): `state.repeatCount = (repeatIndex !== -1 && args[repeatIndex+1])
? parseInt(args[repeatIndex+1], 10) : 3`. `none` models `NaN`. -/
def getRepeatCount (args : List String) : Option Int :=
  match args.findIdx? (fun a => a == "-r" || a == "--repeat") with
  | none => some 3
  | some repeatIndex =>
    match args[repeatIndex + 1]? with
    | none => some 3
    | some v => if v = "" then some 3 else parseIntJS v

/-- A plain letter keypress as delivered by readline. -/
def letterKey (c : Char) : Key :=
  { sequence := [c], name := "", ctrl := false, meta := false }

/-- One step of feeding a letter keypress into the running session. -/
def stepLetter (now : Int) (o : Option Outcome) (c : Char) : Option Outcome :=
  match o with
  | some (Outcome.cont s) => onKeyPress now (some [c]) (letterKey c) s
  | other => other

/-- Feed a sequence of plain letter keypresses to the session. -/
def runLetters (now : Int) (s : SpellState) (cs : List Char) : Option Outcome :=
  cs.foldl (stepLetter now) (some (Outcome.cont s))

/-- Scenario record A: due since "yesterday" (dates are integer days,
"now" is day 0). -/
def recA : WordData :=
  { word := "alpha".toList, definition := "", level := 2,
    lastPracticed := -12, nextReviewDate := -10 }

/-- Scenario record B: due "today", after A's date but before now. -/
def recB : WordData :=
  { word := "bravo".toList, definition := "", level := 1,
    lastPracticed := -3, nextReviewDate := -1 }

/-- A quiescent session state used to build concrete scenario states. -/
def baseState : SpellState :=
  { wordList := [], currentIndex := 0, userInput := [],
    hasStartedTyping := false, mode := Mode.typing, currentWordStreak := 0,
    repeatCount := 3, showSuccessIndicator := false,
    showErrorIndicator := false, saved := [] }

/-- The word "cat" at level 0, currently due. -/
def catRec : WordData :=
  { word := "cat".toList, definition := "", level := 0,
    lastPracticed := -5, nextReviewDate := -5 }

/-- Session on the single word "cat" with `repeatTarget = 2`. -/
def catState : SpellState :=
  { baseState with wordList := [catRec], repeatCount := 2 }

/-- A record that is not yet due at time 0. -/
def recLate : WordData :=
  { word := "later".toList, definition := "", level := 3,
    lastPracticed := -1, nextReviewDate := 5 }

/-- The scheduler's `advance` effect, as performed inline by
`handleCorrectGuess` (src/index.js lines 463-466): level + 1, stamp
`lastPracticed`, reschedule by the interval of the new level. -/
def advanceRecord (now : Int) (w : WordData) : WordData :=
  { w with
    level := w.level + 1, lastPracticed := now,
    nextReviewDate := addDays now (getReviewInterval (w.level + 1)) }

/-- The word "cat" after one advance at time 0: level 1, due again at day 1. -/
def catRecAdvanced : WordData :=
  { word := "cat".toList, definition := "", level := 1,
    lastPracticed := 0, nextReviewDate := 1 }

/-- The terminal state of the "cat, repeatTarget 2, type cat twice"
scenario: one advance performed and persisted, no further word due. -/
def catFinalState : SpellState :=
  { baseState with
    wordList := [catRecAdvanced], repeatCount := 2,
    mode := Mode.success, showSuccessIndicator := true,
    saved := [[catRecAdvanced]] }

/-- Mid-drill state: "c" already typed toward "cat". -/
def midCatState : SpellState :=
  { catState with hasStartedTyping := true, userInput := ['c'] }

/-- Mid-drill state: "ca" already typed toward "cat". -/
def preCatState : SpellState :=
  { catState with hasStartedTyping := true, userInput := "ca".toList }

/-- Session configured (without any validation) with `repeatTarget = 0`. -/
def zeroRepeatState : SpellState :=
  { baseState with wordList := [catRec], repeatCount := 0 }

/-- Result of typing "cat" once under `repeatTarget = 0`: the very first
success already advances the word. -/
def zeroRepeatResult : SpellState :=
  { baseState with
    wordList := [catRecAdvanced], repeatCount := 0,
    mode := Mode.success, showSuccessIndicator := true,
    saved := [[catRecAdvanced]] }

/-- Two-word session, current target at index 1, where the other word
(`recLate`) is not due: the Ctrl+D scenario. -/
def c5State : SpellState :=
  { baseState with wordList := [recLate, recB], currentIndex := 1 }

/-- State after Ctrl+D in `c5State`: only the undue word remains, yet the
session continues in `typing` on index 0. -/
def c5Result : SpellState :=
  { baseState with wordList := [recLate], saved := [[recLate]] }

-- Basic sanity checks of the interval table on concrete levels.
example : getReviewInterval 1 = 1 := by decide
example : getReviewInterval 7 = 140 := by decide
example : getReviewInterval 8 = 180 := by decide
example : getReviewInterval (-2) = 0 := by decide

/-- The interval is never above the 180-day ceiling, at any level. -/
theorem getReviewInterval_le_cap (l : Int) : getReviewInterval l ≤ 180 := by
  unfold getReviewInterval
  split
  · norm_num
  · exact min_le_right _ _

/-- Above the table (level > 7) the interval is exactly 180. -/
theorem getReviewInterval_past_table (l : Int) (h : 7 < l) :
    getReviewInterval l = 180 := by
  unfold getReviewInterval
  rw [if_neg (by omega)]
  have hlen : intervalsList.length ≤ (l - 1).toNat := by
    simp only [intervalsList, List.length]
    omega
  rw [List.getElem?_eq_none hlen]
  decide

/-- C2: For every integer level l: if l <= 0 then reviewInterval(l) = 0; if
1 <= l <= 7 then reviewInterval(l) equals the element at index l-1 of the
sequence [1, 3, 7, 16, 35, 70, 140]; if l > 7 then reviewInterval(l) = 180. -/
theorem reviewInterval_branches (l : Int) :
    (l ≤ 0 → getReviewInterval l = 0) ∧
    (1 ≤ l → l ≤ 7 → getReviewInterval l = intervalsList.getD (l - 1).toNat 0) ∧
    (7 < l → getReviewInterval l = 180) := by
  refine ⟨fun h => ?_, fun h1 h7 => ?_, fun h => getReviewInterval_past_table l h⟩
  · unfold getReviewInterval
    rw [if_pos h]
  · interval_cases l <;> decide

/-- Witness for C2 at the concrete levels -3, 5 and 9. -/
theorem reviewInterval_branches_witness :
    getReviewInterval (-3) = 0 ∧ getReviewInterval 5 = 35 ∧
      getReviewInterval 9 = 180 := by
  refine ⟨(reviewInterval_branches (-3)).1 (by decide), ?_, ?_⟩
  · have h := (reviewInterval_branches 5).2.1 (by decide) (by decide)
    simpa using h
  · exact (reviewInterval_branches 9).2.2 (by decide)

/-- C7: For every level l >= 1, reviewInterval(l) <= 180; reviewInterval is
monotonically non-decreasing, and for every l > 7 (past the table, where the
cap is reached) reviewInterval(l) = 180. -/
theorem reviewInterval_cap_monotone :
    (∀ l : Int, 1 ≤ l → getReviewInterval l ≤ 180) ∧
    (∀ l₁ l₂ : Int, 1 ≤ l₁ → l₁ ≤ l₂ →
      getReviewInterval l₁ ≤ getReviewInterval l₂) ∧
    (∀ l : Int, 7 < l → getReviewInterval l = 180) := by
  refine ⟨fun l _ => getReviewInterval_le_cap l, fun l₁ l₂ h1 h12 => ?_,
    fun l h => getReviewInterval_past_table l h⟩
  by_cases h7 : l₂ ≤ 7
  · have hl₁ : l₁ ≤ 7 := le_trans h12 h7
    have h1' : 1 ≤ l₂ := le_trans h1 h12
    interval_cases l₁ <;> interval_cases l₂ <;> decide
  · rw [getReviewInterval_past_table l₂ (by omega)]
    exact getReviewInterval_le_cap l₁

/-- Witness for C7 at concrete levels 2 <= 6 and 9. -/
theorem reviewInterval_cap_monotone_witness :
    getReviewInterval 2 ≤ 180 ∧
      getReviewInterval 2 ≤ getReviewInterval 6 ∧
      getReviewInterval 9 = 180 :=
  ⟨reviewInterval_cap_monotone.1 2 (by decide),
   reviewInterval_cap_monotone.2.1 2 6 (by decide) (by decide),
   reviewInterval_cap_monotone.2.2 9 (by decide)⟩

/-- C3: `findNextWordToReview`'s index computation returns "none" exactly
when no record is due; otherwise it selects a due record (never one with
`nextReviewDate > now`) of minimal `nextReviewDate`, ties broken by
original collection order. In particular, with A due since yesterday and B
due earlier today, A (index 0) is selected. -/
theorem selectNextDue_spec :
    (∀ (wl : List WordData) (now : Int),
      (findNextWordIndex wl now = none ↔ ∀ w ∈ wl, ¬(w.nextReviewDate ≤ now)) ∧
      (∀ i, findNextWordIndex wl now = some i →
        ∃ w, wl[i]? = some w ∧ w.nextReviewDate ≤ now ∧
          ∀ j w', wl[j]? = some w' → w'.nextReviewDate ≤ now →
            (w.nextReviewDate ≤ w'.nextReviewDate ∧
              (w'.nextReviewDate ≤ w.nextReviewDate → i ≤ j)))) ∧
    findNextWordIndex [recA, recB] 0 = some 0 := by
  refine ⟨fun wl now => ⟨findNextWordIndex_eq_none_iff wl now,
    fun i h => findNextWordIndex_eq_some wl now i h⟩, ?_⟩
  decide

/-- Witness for C3: instantiating the selection property on the concrete
two-record collection. -/
theorem selectNextDue_spec_witness :
    ∃ w, [recA, recB][0]? = some w ∧ w.nextReviewDate ≤ 0 := by
  obtain ⟨w, h1, h2, -⟩ :=
    (selectNextDue_spec.1 [recA, recB] 0).2 0 selectNextDue_spec.2
  exact ⟨w, h1, h2⟩

/-- C9: `findNextWordToReview` changes no record and no session field
other than `currentIndex`; when it reports success, the designated
`currentIndex` is an index into the original (unmodified) collection whose
record is due, so later scheduler mutations through that index act on the
shared record. -/
theorem findNextWordToReview_frame (now : Int) (s : SpellState) :
    ((findNextWordToReview now s).2.wordList = s.wordList ∧
     (findNextWordToReview now s).2.userInput = s.userInput ∧
     (findNextWordToReview now s).2.hasStartedTyping = s.hasStartedTyping ∧
     (findNextWordToReview now s).2.mode = s.mode ∧
     (findNextWordToReview now s).2.currentWordStreak = s.currentWordStreak ∧
     (findNextWordToReview now s).2.repeatCount = s.repeatCount ∧
     (findNextWordToReview now s).2.saved = s.saved) ∧
    ((findNextWordToReview now s).1 = true →
      ∃ w, s.wordList[(findNextWordToReview now s).2.currentIndex]? = some w ∧
        w.nextReviewDate ≤ now) ∧
    ((findNextWordToReview now s).1 = false → (findNextWordToReview now s).2 = s) := by
  unfold findNextWordToReview
  cases h : findNextWordIndex s.wordList now with
  | none => simp
  | some i =>
    refine ⟨⟨rfl, rfl, rfl, rfl, rfl, rfl, rfl⟩, fun _ => ?_, fun hf => by simp at hf⟩
    obtain ⟨w, hw, hdue, -⟩ := findNextWordIndex_eq_some s.wordList now i h
    exact ⟨w, hw, hdue⟩

/-- Witness for C9: the success case on a concrete two-record collection. -/
theorem findNextWordToReview_frame_witness :
    ∃ w, ({ baseState with wordList := [recA, recB] } : SpellState).wordList[
        (findNextWordToReview 0 { baseState with wordList := [recA, recB] }).2.currentIndex]? =
        some w ∧ w.nextReviewDate ≤ 0 :=
  (findNextWordToReview_frame 0 { baseState with wordList := [recA, recB] }).2.1
    (by decide)

/-! ### Helper lemmas about the keystroke path -/

theorem startsWithCL_refl (l : List Char) : startsWithCL l l = true := by
  induction l with
  | nil => rfl
  | cons c cs ih => simp [startsWithCL, ih]

/-- The test `startsWithCL w u` decides exactly the prefix relation. -/
theorem startsWithCL_correct (w u : List Char) :
    startsWithCL w u = true ↔ List.IsPrefix u w := by
  induction u generalizing w with
  | nil => simp [startsWithCL]
  | cons d ds ih =>
    cases w with
    | nil => simp [startsWithCL]
    | cons c cs =>
      simp only [startsWithCL, Bool.and_eq_true, beq_iff_eq,
        List.cons_prefix_cons, ih]
      exact ⟨fun h => ⟨h.1.symm, h.2⟩, fun h => ⟨h.1.symm, h.2⟩⟩

/-- Reduction of the typing-mode body on a plain character keystroke, when
the current index designates the record `cw`. -/
theorem onKeyPressTyping_char (now : Int) (c : Char) (key : Key)
    (s : SpellState) (cw : WordData)
    (h1 : s.mode = Mode.typing) (h4 : key.name ≠ "backspace")
    (h5 : key.ctrl = false) (h6 : key.meta = false)
    (hget : s.wordList[s.currentIndex]? = some cw) :
    onKeyPressTyping now (some [c]) key s =
      (if startsWithCL cw.word (s.userInput ++ [c]) then
        if s.userInput ++ [c] = cw.word then
          handleCorrectGuess now { s with userInput := s.userInput ++ [c] }
        else some (Outcome.cont { s with userInput := s.userInput ++ [c] })
      else
        some (Outcome.cont
          (handleIncorrectGuess { s with userInput := s.userInput ++ [c] }))) := by
  unfold onKeyPressTyping
  simp [h1, h4, h5, h6, hget]

/-- Reduction of `onKeyPress` on a plain character keystroke arriving after
typing has started, in `typing` mode. -/
theorem onKeyPress_char_path (now : Int) (c : Char) (key : Key) (s : SpellState)
    (cw : WordData)
    (h1 : s.mode = Mode.typing) (h2 : s.hasStartedTyping = true)
    (h3 : key.sequence ≠ ['\x03']) (h4 : key.name ≠ "backspace")
    (h5 : key.ctrl = false) (h6 : key.meta = false)
    (hget : s.wordList[s.currentIndex]? = some cw) :
    onKeyPress now (some [c]) key s =
      (if startsWithCL cw.word (s.userInput ++ [c]) then
        if s.userInput ++ [c] = cw.word then
          handleCorrectGuess now { s with userInput := s.userInput ++ [c] }
        else some (Outcome.cont { s with userInput := s.userInput ++ [c] })
      else
        some (Outcome.cont
          (handleIncorrectGuess { s with userInput := s.userInput ++ [c] }))) := by
  unfold onKeyPress
  rw [if_neg h3]
  split
  · exact onKeyPressTyping_char now c key s cw h1 h4 h5 h6 hget
  · next hns => exact absurd h2 hns

/-- Before typing has started, a letter keystroke is processed against the
state with `hasStartedTyping` switched on. -/
theorem onKeyPress_gate_path (now : Int) (str : Option (List Char)) (key : Key)
    (s : SpellState) (cs : List Char)
    (h2 : s.hasStartedTyping = false) (h3 : key.sequence ≠ ['\x03'])
    (hstr : str = some cs) (hlet : isLetterStr cs = true) :
    onKeyPress now str key s =
      onKeyPressTyping now str key { s with hasStartedTyping := true } := by
  unfold onKeyPress
  rw [if_neg h3, h2, hstr]
  simp [hlet]

/-! ### Claim theorems for the drill session -/

/-- C10 (amended): before the user has started typing, every keystroke
other than the interrupt key Ctrl+C whose `str` is not a single ASCII
letter (digit, punctuation, space, backspace, ...) is ignored entirely —
the handler returns with the state unchanged; Ctrl+C terminates the
session; a letter keystroke begins input and is itself processed as the
first typed character (it runs the typing body on the state with
`hasStartedTyping` set). -/
theorem preTyping_ignore (now : Int) (str : Option (List Char)) (key : Key)
    (s : SpellState) (cs : List Char) :
    s.hasStartedTyping = false →
    (key.sequence = ['\x03'] →
      onKeyPress now str key s = some (Outcome.exitInterrupt s)) ∧
    (key.sequence ≠ ['\x03'] → str = some cs → isLetterStr cs = false →
      onKeyPress now str key s = some (Outcome.cont s)) ∧
    (key.sequence ≠ ['\x03'] → str = some cs → isLetterStr cs = true →
      onKeyPress now str key s =
        onKeyPressTyping now str key { s with hasStartedTyping := true }) := by
  intro hst
  refine ⟨fun hseq => ?_, fun hseq hstr hlet => ?_,
    fun hseq hstr hlet => onKeyPress_gate_path now str key s cs hst hseq hstr hlet⟩
  · unfold onKeyPress
    rw [if_pos hseq]
  · unfold onKeyPress
    rw [if_neg hseq, hst, hstr]
    simp [hlet]

/-- Witness for C10: a digit keystroke before typing started is ignored. -/
theorem preTyping_ignore_witness :
    onKeyPress 0 (some ['5']) (letterKey '5') catState =
      some (Outcome.cont catState) :=
  ((preTyping_ignore 0 (some ['5']) (letterKey '5') catState ['5']) rfl).2.1
    (by decide) rfl (by decide)

/-- C10 counterexample: the Ctrl+C keystroke arriving before typing has
started is a key that is not a single ASCII letter, yet it is not ignored:
the session terminates (`exitInterrupt`), refuting "every non-letter key
event is ignored entirely". -/
theorem preTyping_ignore_cex :
    onKeyPress 0 (some ['\x03'])
        { sequence := ['\x03'], name := "", ctrl := true, meta := false }
        catState =
      some (Outcome.exitInterrupt catState) ∧
    isLetterStr ['\x03'] = false ∧
    catState.hasStartedTyping = false ∧
    (Outcome.exitInterrupt catState ≠ Outcome.cont catState) := by
  refine ⟨rfl, rfl, rfl, by simp⟩

/-- C5 (amended): the Ctrl+D event permanently removes the record at
`currentIndex` and persists the shrunken collection; if the collection is
then empty the session terminates ("list empty") with the empty collection
having been saved; otherwise `typedPrefix` and `streak` are cleared and
the session returns to `typing` with `currentIndex` reset to 0, so the
first remaining record becomes the current target regardless of dueness —
`findNextWordToReview` is not consulted. -/
theorem deleteWord_spec (s : SpellState) :
    (s.wordList.eraseIdx s.currentIndex = [] →
      onData [4] s = Outcome.exitListEmpty
        { s with wordList := [], saved := s.saved ++ [[]] }) ∧
    (s.wordList.eraseIdx s.currentIndex ≠ [] →
      onData [4] s = Outcome.cont
        { s with
          wordList := s.wordList.eraseIdx s.currentIndex,
          saved := s.saved ++ [s.wordList.eraseIdx s.currentIndex],
          currentIndex := 0, userInput := [], hasStartedTyping := false,
          mode := Mode.typing, currentWordStreak := 0 }) := by
  constructor <;> intro h <;> unfold onData saveWordList <;>
    rw [if_pos (by decide)] <;> simp [h, List.length_eq_zero]

/-- Witness for C5: Ctrl+D on the concrete two-word session. -/
theorem deleteWord_spec_witness :
    onData [4] c5State = Outcome.cont
      { c5State with
        wordList := c5State.wordList.eraseIdx c5State.currentIndex,
        saved := c5State.saved ++ [c5State.wordList.eraseIdx c5State.currentIndex],
        currentIndex := 0, userInput := [], hasStartedTyping := false,
        mode := Mode.typing, currentWordStreak := 0 } :=
  (deleteWord_spec c5State).2 (by decide)

/-- C5 counterexample: deleting the current word of `c5State` leaves only
a word that is not due, yet the session does not terminate with "nothing
due": it continues in `typing` with `currentIndex = 0`, even though
`findNextWordIndex` on the remaining collection yields none. -/
theorem deleteWord_cex :
    onData [4] c5State = Outcome.cont c5Result ∧
    c5Result.mode = Mode.typing ∧
    c5Result.currentIndex = 0 ∧
    findNextWordIndex c5Result.wordList 0 = none := by
  refine ⟨by decide, rfl, rfl, by decide⟩

/-- C6 (amended): when no repeat option is supplied the drill repeat
count defaults to 3; but the `-r` value is parsed with `parseInt` and used
without validation, so a configuration with `repeatTarget < 1` (here
`-r 0`) is accepted and a session runs — and even advances a word — with
it. -/
theorem repeatCount_default (args : List String) :
    ((¬ "-r" ∈ args ∧ ¬ "--repeat" ∈ args) → getRepeatCount args = some 3) ∧
    getRepeatCount ["-r", "0"] = some 0 ∧
    runLetters 0 zeroRepeatState "cat".toList =
      some (Outcome.exitAllDone zeroRepeatResult) := by
  refine ⟨fun h => ?_, by decide, by decide⟩
  unfold getRepeatCount
  have hnone : args.findIdx? (fun a => a == "-r" || a == "--repeat") = none := by
    rw [List.findIdx?_eq_none_iff]
    intro x hx
    simp only [Bool.or_eq_false_iff, beq_eq_false_iff_ne, ne_eq]
    exact ⟨fun h' => h.1 (h' ▸ hx), fun h' => h.2 (h' ▸ hx)⟩
  rw [hnone]

/-- Witness for C6: the default drill count with no flags. -/
theorem repeatCount_default_witness :
    getRepeatCount ["practice"] = some 3 :=
  (repeatCount_default ["practice"]).1 (by decide)

/-- C6 counterexample: `spell -r 0` configures `repeatTarget = 0 < 1` and
is not rejected: the session runs with it (typing "cat" once already
advances the word and ends the session), refuting "no session ever runs
with repeatTarget < 1". -/
theorem repeatCount_cex :
    getRepeatCount ["-r", "0"] = some 0 ∧ ((0 : Int) < 1) ∧
    zeroRepeatState.repeatCount = 0 ∧
    runLetters 0 zeroRepeatState "cat".toList =
      some (Outcome.exitAllDone zeroRepeatResult) := by
  refine ⟨by decide, by decide, rfl, by decide⟩

/-- Characterization of `handleCorrectGuess` when the typed input equals
the current word: streak bump below the target; advance + persist +
next-word selection (or completion exit) at the target. -/
theorem handleCorrectGuess_eq (now : Int) (s : SpellState) (cw : WordData)
    (hget : s.wordList[s.currentIndex]? = some cw)
    (heq : s.userInput = cw.word) :
    (((s.currentWordStreak + 1 : Nat) : Int) < s.repeatCount →
      handleCorrectGuess now s = some (Outcome.cont
        { s with userInput := [], hasStartedTyping := false,
                 currentWordStreak := s.currentWordStreak + 1,
                 showSuccessIndicator := true, mode := Mode.typing })) ∧
    (s.repeatCount ≤ ((s.currentWordStreak + 1 : Nat) : Int) →
      (findNextWordIndex
          (s.wordList.set s.currentIndex (advanceRecord now cw)) now = none →
        handleCorrectGuess now s = some (Outcome.exitAllDone
          { s with
            wordList := s.wordList.set s.currentIndex (advanceRecord now cw),
            userInput := [], hasStartedTyping := false, currentWordStreak := 0,
            showSuccessIndicator := true, mode := Mode.success,
            saved := s.saved ++
              [s.wordList.set s.currentIndex (advanceRecord now cw)] })) ∧
      (∀ i, findNextWordIndex
          (s.wordList.set s.currentIndex (advanceRecord now cw)) now = some i →
        handleCorrectGuess now s = some (Outcome.cont
          { s with
            wordList := s.wordList.set s.currentIndex (advanceRecord now cw),
            currentIndex := i,
            userInput := [], hasStartedTyping := false, currentWordStreak := 0,
            showSuccessIndicator := true, mode := Mode.typing,
            saved := s.saved ++
              [s.wordList.set s.currentIndex (advanceRecord now cw)] }))) := by
  refine ⟨fun hlt => ?_, fun hge => ⟨fun hnone => ?_, fun i hsome => ?_⟩⟩
  · unfold handleCorrectGuess
    simp only [hget, heq, eq_self_iff_true, if_true]
    rw [if_neg (not_le.mpr hlt)]
  · unfold handleCorrectGuess findNextWordToReview saveWordList
    simp only [hget, heq, eq_self_iff_true, if_true, advanceRecord] at hnone ⊢
    rw [if_pos hge]
    simp only [hnone]
  · unfold handleCorrectGuess findNextWordToReview saveWordList
    simp only [hget, heq, eq_self_iff_true, if_true, advanceRecord] at hsome ⊢
    rw [if_pos hge]
    simp only [hsome]

/-- C8: in `typing` mode the prefix-versus-mismatch classification is
re-evaluated on every single keystroke against the freshly appended
`typedPrefix`: a proper, non-equal prefix of the target word leaves the
session in `typing` with only `typedPrefix` extended (streak, level and
every record unchanged — the resulting state differs from the input state
in the `userInput` field alone); exact full-word equality alone routes to
the success handler; a divergent character alone routes to the mismatch
handler. -/
theorem charClassification (now : Int) (c : Char) (key : Key)
    (s : SpellState) (cw : WordData)
    (h1 : s.mode = Mode.typing) (h2 : s.hasStartedTyping = true)
    (h3 : key.sequence ≠ ['\x03']) (h4 : key.name ≠ "backspace")
    (h5 : key.ctrl = false) (h6 : key.meta = false)
    (hget : s.wordList[s.currentIndex]? = some cw) :
    (startsWithCL cw.word (s.userInput ++ [c]) = true →
      s.userInput ++ [c] ≠ cw.word →
      onKeyPress now (some [c]) key s =
        some (Outcome.cont { s with userInput := s.userInput ++ [c] })) ∧
    (s.userInput ++ [c] = cw.word →
      onKeyPress now (some [c]) key s =
        handleCorrectGuess now { s with userInput := s.userInput ++ [c] }) ∧
    (startsWithCL cw.word (s.userInput ++ [c]) = false →
      onKeyPress now (some [c]) key s =
        some (Outcome.cont
          (handleIncorrectGuess { s with userInput := s.userInput ++ [c] }))) := by
  have hpath := onKeyPress_char_path now c key s cw h1 h2 h3 h4 h5 h6 hget
  refine ⟨fun hpre hne => ?_, fun hword => ?_, fun hpre => ?_⟩
  · rw [hpath, if_pos hpre, if_neg hne]
  · have hsw : startsWithCL cw.word (s.userInput ++ [c]) = true := by
      rw [hword]
      exact startsWithCL_refl cw.word
    rw [hpath, if_pos hsw, if_pos hword]
  · rw [hpath, if_neg (by simp [hpre])]

/-- Witness for C8: typing 'a' after "c" toward "cat" is a proper prefix
and only extends the typed input. -/
theorem charClassification_witness :
    onKeyPress 0 (some ['a']) (letterKey 'a') midCatState =
      some (Outcome.cont
        { midCatState with userInput := midCatState.userInput ++ ['a'] }) :=
  (charClassification 0 'a' (letterKey 'a') midCatState catRec rfl rfl
      (by decide) (by decide) rfl rfl (by decide)).1 (by decide) (by decide)

/-- C4: a character that breaks the prefix match (at any divergence
position) resets `typedPrefix` to empty and `streak` to 0, leaves every
record — hence `level`, `lastPracticed`, `nextReviewDate` — unchanged,
triggers no persistence write, and (after the penalizing flash timeout)
returns the session to `typing`. -/
theorem mismatch_spec (now : Int) (c : Char) (key : Key)
    (s : SpellState) (cw : WordData)
    (h1 : s.mode = Mode.typing)
    (hstart : s.hasStartedTyping = true ∨ isAsciiLetter c = true)
    (h3 : key.sequence ≠ ['\x03']) (h4 : key.name ≠ "backspace")
    (h5 : key.ctrl = false) (h6 : key.meta = false)
    (hget : s.wordList[s.currentIndex]? = some cw)
    (hpre : startsWithCL cw.word (s.userInput ++ [c]) = false) :
    ∃ s', onKeyPress now (some [c]) key s = some (Outcome.cont s') ∧
      s'.userInput = [] ∧ s'.currentWordStreak = 0 ∧
      s'.wordList = s.wordList ∧ s'.saved = s.saved ∧
      s'.mode = Mode.error ∧ (incorrectTimeout s').mode = Mode.typing := by
  by_cases h2 : s.hasStartedTyping = true
  · have hpath := onKeyPress_char_path now c key s cw h1 h2 h3 h4 h5 h6 hget
    refine ⟨handleIncorrectGuess { s with userInput := s.userInput ++ [c] },
      ?_, rfl, rfl, rfl, rfl, rfl, rfl⟩
    rw [hpath, if_neg (by simp [hpre])]
  · have hletter : isAsciiLetter c = true := by
      rcases hstart with h | h
      · exact absurd h h2
      · exact h
    have h2f : s.hasStartedTyping = false := by
      simpa using h2
    have hgate := onKeyPress_gate_path now (some [c]) key s [c] h2f h3 rfl
      (by simpa [isLetterStr] using hletter)
    have htyp := onKeyPressTyping_char now c key
      { s with hasStartedTyping := true } cw h1 h4 h5 h6 hget
    refine ⟨handleIncorrectGuess { s with userInput := s.userInput ++ [c] },
      ?_, rfl, rfl, rfl, rfl, rfl, rfl⟩
    rw [hgate, htyp, if_neg (by simp [hpre])]
    exact rfl

/-- Witness for C4: typing 'x' after "c" toward "cat" diverges at
position 1. -/
theorem mismatch_spec_witness :
    ∃ s', onKeyPress 0 (some ['x']) (letterKey 'x') midCatState =
        some (Outcome.cont s') ∧
      s'.userInput = [] ∧ s'.currentWordStreak = 0 ∧
      s'.wordList = midCatState.wordList ∧ s'.saved = midCatState.saved ∧
      s'.mode = Mode.error ∧ (incorrectTimeout s').mode = Mode.typing :=
  mismatch_spec 0 'x' (letterKey 'x') midCatState catRec rfl (Or.inl rfl)
    (by decide) (by decide) rfl rfl (by decide) (by decide)

/-- C1: a keystroke that completes the current word increments the streak;
below the repeat target the target word and every record are unchanged and
the session drills again; at the target the record's level is incremented
by exactly 1, `lastPracticed` becomes `now`, `nextReviewDate` becomes
`now + reviewInterval(new level)` days, the collection is persisted, the
streak resets to 0 and the next due word is selected (completion exit when
none). In both sub-cases `typedPrefix` is cleared and the session is back
in `typing` (in the completion exit the process ends). In particular,
typing "cat" twice with repeatTarget 2 on the level-0 word performs
exactly one advance: level 0 to 1 and `nextReviewDate = lastPracticed + 1`
day. -/
theorem correctGuess_spec (now : Int) (c : Char) (key : Key)
    (s : SpellState) (cw : WordData)
    (h1 : s.mode = Mode.typing) (h2 : s.hasStartedTyping = true)
    (h3 : key.sequence ≠ ['\x03']) (h4 : key.name ≠ "backspace")
    (h5 : key.ctrl = false) (h6 : key.meta = false)
    (hget : s.wordList[s.currentIndex]? = some cw)
    (hword : s.userInput ++ [c] = cw.word) :
    (((s.currentWordStreak + 1 : Nat) : Int) < s.repeatCount →
      onKeyPress now (some [c]) key s = some (Outcome.cont
        { s with userInput := [], hasStartedTyping := false,
                 currentWordStreak := s.currentWordStreak + 1,
                 showSuccessIndicator := true, mode := Mode.typing })) ∧
    (s.repeatCount ≤ ((s.currentWordStreak + 1 : Nat) : Int) →
      (findNextWordIndex
          (s.wordList.set s.currentIndex (advanceRecord now cw)) now = none →
        onKeyPress now (some [c]) key s = some (Outcome.exitAllDone
          { s with
            wordList := s.wordList.set s.currentIndex (advanceRecord now cw),
            userInput := [], hasStartedTyping := false, currentWordStreak := 0,
            showSuccessIndicator := true, mode := Mode.success,
            saved := s.saved ++
              [s.wordList.set s.currentIndex (advanceRecord now cw)] })) ∧
      (∀ i, findNextWordIndex
          (s.wordList.set s.currentIndex (advanceRecord now cw)) now = some i →
        onKeyPress now (some [c]) key s = some (Outcome.cont
          { s with
            wordList := s.wordList.set s.currentIndex (advanceRecord now cw),
            currentIndex := i,
            userInput := [], hasStartedTyping := false, currentWordStreak := 0,
            showSuccessIndicator := true, mode := Mode.typing,
            saved := s.saved ++
              [s.wordList.set s.currentIndex (advanceRecord now cw)] }))) ∧
    (runLetters 0 catState "catcat".toList =
        some (Outcome.exitAllDone catFinalState) ∧
      catFinalState.wordList = [advanceRecord 0 catRec] ∧
      catRec.level = 0 ∧ (advanceRecord 0 catRec).level = 1 ∧
      (advanceRecord 0 catRec).nextReviewDate =
        (advanceRecord 0 catRec).lastPracticed + 1) := by
  have hsw : startsWithCL cw.word (s.userInput ++ [c]) = true := by
    rw [hword]
    exact startsWithCL_refl cw.word
  have hpath := onKeyPress_char_path now c key s cw h1 h2 h3 h4 h5 h6 hget
  rw [if_pos hsw, if_pos hword] at hpath
  have hcg := handleCorrectGuess_eq now { s with userInput := s.userInput ++ [c] }
    cw hget hword
  refine ⟨fun hlt => ?_, fun hge => ⟨fun hnone => ?_, fun i hsome => ?_⟩,
    by decide, by decide, by decide, by decide, by decide⟩
  · rw [hpath]
    exact hcg.1 hlt
  · rw [hpath]
    exact (hcg.2 hge).1 hnone
  · rw [hpath]
    exact (hcg.2 hge).2 i hsome

/-- Witness for C1: completing "cat" for the first time with
repeatTarget 2 only bumps the streak. -/
theorem correctGuess_spec_witness :
    onKeyPress 0 (some ['t']) (letterKey 't') preCatState =
      some (Outcome.cont
        { preCatState with userInput := [], hasStartedTyping := false,
                           currentWordStreak := preCatState.currentWordStreak + 1,
                           showSuccessIndicator := true, mode := Mode.typing }) :=
  (correctGuess_spec 0 't' (letterKey 't') preCatState catRec rfl rfl
      (by decide) (by decide) rfl rfl (by decide) (by decide)).1 (by decide)
